import Mathlib

/-!
Verification development for the yahoo-finance-mcp support core:
the TTL/LRU cache (`cache_manager.py`) and the token-based pagination
engine (`src/yfin_mcp/pagination_utils.py`, adaptive-halving strategy).

Modelling conventions (shallow embedding):
* Python `time.time()` float timestamps and TTLs are modelled as `ℤ`:
  the claims about the cache only use ordering, addition and subtraction
  of times, so any linearly ordered integral time domain is faithful, and
  `ℤ` keeps every definition kernel-executable.  All `time.time()` reads
  that occur inside one public cache operation are modelled as a single
  instant `now` passed as a parameter.
* A Python object stored in the cache is modelled as `Option γ`:
  `none` models the Python value `None`, `some v` models a non-`None`
  object.  `CacheManager.get` returning `none` therefore models the
  Python method returning `None` (on a miss, or on a hit whose stored
  value is `None`), exactly as in the source.
* The `OrderedDict` is modelled as an association list whose head is the
  least-recently-used end (`popitem(last=False)` removes the head,
  `move_to_end` moves an entry to the tail).
* Operations that can raise are fallible: `set` returns `none` when
  `popitem` would raise `KeyError` on an empty dict (only possible when
  `max_size = 0`); `get_or_set` returns an `Except` whose error is either
  the propagated fetch failure or that `KeyError`.
* `get_or_set` additionally returns the number of times `factory_func`
  was evaluated on that call (0 or 1, determined by the branch taken),
  instrumenting the single `factory_func()` call site of the source.
-/

/-- One cache entry: the stored tuple `(value, timestamp, ttl)` of
`CacheManager.set` in `cache_manager.py`. -/
structure CacheEntry (γ : Type) where
  value : Option γ
  timestamp : ℤ
  ttl : ℤ
  deriving Repr, DecidableEq

/-- The state of `CacheManager`: the `OrderedDict` (head = least recently
used), `_max_size`, and the `_hits` / `_misses` counters. -/
structure CacheManager (γ : Type) where
  cache : List (String × CacheEntry γ)
  max_size : ℕ
  hits : ℕ
  misses : ℕ
  deriving Repr, DecidableEq

/-- Keys of the ordered dict, in order. -/
def dictKeys {γ : Type} (l : List (String × CacheEntry γ)) : List String :=
  l.map Prod.fst

/-- `l[k]` / `k in l` of the Python dict: first (unique, by the nodup-keys
invariant) entry stored under `k`. -/
def dict_lookup {γ : Type} (l : List (String × CacheEntry γ)) (k : String) :
    Option (CacheEntry γ) :=
  (l.find? (fun p => p.1 = k)).map Prod.snd

/-- `del l[k]` of the Python dict: remove the entry stored under `k`. -/
def dict_del {γ : Type} (l : List (String × CacheEntry γ)) (k : String) :
    List (String × CacheEntry γ) :=
  l.filter (fun p => ¬ p.1 = k)

/-- `l.move_to_end(k)` of `OrderedDict`: move the entry under `k` to the
most-recently-used (tail) end.  The source only ever calls it on a present
key (`KeyError` otherwise), so the absent case is modelled as the identity. -/
def move_to_end {γ : Type} (l : List (String × CacheEntry γ)) (k : String) :
    List (String × CacheEntry γ) :=
  match l.find? (fun p => p.1 = k) with
  | none => l
  | some p => l.filter (fun q => ¬ q.1 = k) ++ [p]

/-- `l[k] = e` of the Python dict: replace in place when `k` is present,
append at the tail when it is new. -/
def dict_assign {γ : Type} (l : List (String × CacheEntry γ)) (k : String)
    (e : CacheEntry γ) : List (String × CacheEntry γ) :=
  if (l.find? (fun p => p.1 = k)).isSome then
    l.map (fun p => if p.1 = k then (k, e) else p)
  else
    l ++ [(k, e)]

namespace CacheManager

/-- `CacheManager.get` of `cache_manager.py`:
absent key → miss; expired entry (`now - timestamp > ttl`) → delete it and
miss; otherwise move the key to the most-recently-used end, count a hit and
return the stored value. -/
def get {γ : Type} (s : CacheManager γ) (key : String) (now : ℤ) :
    Option γ × CacheManager γ :=
  match dict_lookup s.cache key with
  | none => (none, { s with misses := s.misses + 1 })
  | some e =>
    if now - e.timestamp > e.ttl then
      (none, { s with cache := dict_del s.cache key, misses := s.misses + 1 })
    else
      (e.value, { s with cache := move_to_end s.cache key, hits := s.hits + 1 })

/-- `CacheManager.set` of `cache_manager.py`: when at capacity and the key
is new, `popitem(last=False)` evicts the least-recently-used (head) entry
first; then the entry is written and moved to the most-recently-used end.
Returns `none` exactly when `popitem` would raise on an empty dict. -/
def set {γ : Type} (s : CacheManager γ) (key : String) (value : Option γ)
    (ttl_seconds now : ℤ) : Option (CacheManager γ) :=
  if s.cache.length ≥ s.max_size ∧ (dict_lookup s.cache key).isNone then
    match s.cache with
    | [] => none
    | _ :: rest =>
      some { s with
        cache := move_to_end (dict_assign rest key ⟨value, now, ttl_seconds⟩) key }
  else
    some { s with
      cache := move_to_end (dict_assign s.cache key ⟨value, now, ttl_seconds⟩) key }

/-- Exceptions observable from `get_or_set`: a propagated failure of
`factory_func`, or the `KeyError` of `popitem` on an empty dict. -/
inductive PyExc (ε : Type) where
  | fetchError (e : ε)
  | keyError
  deriving Repr, DecidableEq

/-- `CacheManager.get_or_set` of `cache_manager.py`.  The last component
counts evaluations of `factory_func` in this call (the source's single call
site runs exactly when `self.get` returned `None`). -/
def get_or_set {γ ε : Type} (s : CacheManager γ) (key : String)
    (factory : Except ε (Option γ)) (ttl_seconds now : ℤ) :
    Except (PyExc ε) (Option γ × Bool) × CacheManager γ × ℕ :=
  match get s key now with
  | (some v, s1) => (Except.ok (some v, true), s1, 0)
  | (none, s1) =>
    match factory with
    | Except.error e => (Except.error (PyExc.fetchError e), s1, 1)
    | Except.ok v =>
      match set s1 key v ttl_seconds now with
      | none => (Except.error PyExc.keyError, s1, 1)
      | some s2 => (Except.ok (v, false), s2, 1)

/-- `CacheManager.get_age` of `cache_manager.py`: `now - timestamp` for a
present key (no expiry check), `None` for an absent one; no mutation. -/
def get_age {γ : Type} (s : CacheManager γ) (key : String) (now : ℤ) :
    Option ℤ × CacheManager γ :=
  match dict_lookup s.cache key with
  | none => (none, s)
  | some e => (some (now - e.timestamp), s)

/-- `CacheManager.clear` of `cache_manager.py`. -/
def clear {γ : Type} (s : CacheManager γ) : CacheManager γ :=
  { s with cache := [], hits := 0, misses := 0 }

/-- The dictionary returned by `CacheManager.get_stats` (the `hit_rate`
percentage string is modelled as the underlying rational). -/
structure Stats where
  size : ℕ
  max_size : ℕ
  hits : ℕ
  misses : ℕ
  hit_rate : ℚ
  deriving Repr, DecidableEq

/-- `CacheManager.get_stats` of `cache_manager.py`: read-only. -/
def get_stats {γ : Type} (s : CacheManager γ) : Stats × CacheManager γ :=
  (⟨s.cache.length, s.max_size, s.hits, s.misses,
    if s.hits + s.misses > 0 then (s.hits : ℚ) / ((s.hits : ℚ) + s.misses) else 0⟩,
   s)

end CacheManager

/-- Claim C10: for every key present in the store, `get_age` returns
`now - insertedAt` even when that exceeds the entry's ttl (it performs no
expiry check, as the returned value is `map`ped from the bare lookup), and
`get_age` leaves the whole state — entries, LRU order, hit/miss counters —
unchanged. -/
theorem C10_get_age_frame {γ : Type} (s : CacheManager γ) (key : String) (now : ℤ) :
    CacheManager.get_age s key now =
      ((dict_lookup s.cache key).map (fun e => now - e.timestamp), s) := by
  unfold CacheManager.get_age
  cases dict_lookup s.cache key <;> rfl

section DictLemmas

variable {γ : Type}

lemma find?_filter_ne (l : List (String × CacheEntry γ)) (k : String) :
    (l.filter (fun q => ¬ q.1 = k)).find? (fun p => p.1 = k) = none := by
  apply List.find?_eq_none.2
  intro x hx
  have h2 : ¬ x.1 = k := by simpa using (List.mem_filter.1 hx).2
  simpa using h2

lemma find?_append_of_none {l₁ l₂ : List (String × CacheEntry γ)}
    {p : String × CacheEntry γ → Bool} (h : l₁.find? p = none) :
    (l₁ ++ l₂).find? p = l₂.find? p := by
  rw [List.find?_append, h, Option.none_or]

lemma dict_lookup_move_to_end (l : List (String × CacheEntry γ)) (k : String) :
    dict_lookup (move_to_end l k) k = dict_lookup l k := by
  unfold move_to_end
  cases hf : l.find? (fun p => p.1 = k) with
  | none => rfl
  | some p =>
    unfold dict_lookup
    rw [hf, find?_append_of_none (find?_filter_ne l k)]
    have hp : p.1 = k := by simpa using List.find?_some hf
    simp [List.find?, hp]

lemma lookup_map_replace (l : List (String × CacheEntry γ)) (k : String)
    (e : CacheEntry γ) (h : (l.find? (fun p => p.1 = k)).isSome) :
    dict_lookup (l.map (fun p => if p.1 = k then (k, e) else p)) k = some e := by
  induction l with
  | nil => simp at h
  | cons p t ih =>
    by_cases hp : p.1 = k
    · simp [dict_lookup, List.find?, hp]
    · have ht : (t.find? (fun p => p.1 = k)).isSome := by
        rw [List.find?_cons_of_neg] at h
        · exact h
        · simp [hp]
      simpa [dict_lookup, List.find?, hp] using ih ht

lemma dict_lookup_assign_self (l : List (String × CacheEntry γ)) (k : String)
    (e : CacheEntry γ) :
    dict_lookup (dict_assign l k e) k = some e := by
  unfold dict_assign
  by_cases h : (l.find? (fun p => p.1 = k)).isSome
  · rw [if_pos h]
    exact lookup_map_replace l k e h
  · rw [if_neg h]
    have hn : l.find? (fun p => p.1 = k) = none :=
      Option.not_isSome_iff_eq_none.1 h
    unfold dict_lookup
    rw [find?_append_of_none hn]
    simp [List.find?]

lemma dict_lookup_del_self (l : List (String × CacheEntry γ)) (k : String) :
    dict_lookup (dict_del l k) k = none := by
  unfold dict_del dict_lookup
  rw [find?_filter_ne]
  rfl

end DictLemmas

/-- Claim C4: `get` reports a miss (increments the miss counter and returns
found-nothing) exactly when the key is absent or `now - insertedAt > ttl`;
an expired entry is deleted by the read that discovered it; a successful
`get` increments the hit counter and moves the key to the most-recently-used
(tail) position. -/
theorem C4_get_semantics {γ : Type} (s : CacheManager γ) (key : String) (now : ℤ) :
    (dict_lookup s.cache key = none →
      CacheManager.get s key now = (none, { s with misses := s.misses + 1 }))
    ∧ (∀ e, dict_lookup s.cache key = some e → now - e.timestamp > e.ttl →
      CacheManager.get s key now =
        (none, { s with cache := dict_del s.cache key, misses := s.misses + 1 })
      ∧ dict_lookup (dict_del s.cache key) key = none)
    ∧ (∀ e, dict_lookup s.cache key = some e → ¬ now - e.timestamp > e.ttl →
      CacheManager.get s key now =
        (e.value, { s with cache := move_to_end s.cache key, hits := s.hits + 1 })
      ∧ (dictKeys (move_to_end s.cache key)).getLast? = some key
      ∧ dict_lookup (move_to_end s.cache key) key = some e)
    ∧ ((CacheManager.get s key now).2.misses = s.misses + 1 ↔
        dict_lookup s.cache key = none
        ∨ ∃ e, dict_lookup s.cache key = some e ∧ now - e.timestamp > e.ttl) := by
  refine ⟨?_, ?_, ?_, ?_⟩
  · intro h
    simp [CacheManager.get, h]
  · intro e he hexp
    exact ⟨by simp [CacheManager.get, he, hexp], dict_lookup_del_self s.cache key⟩
  · intro e he hfresh
    refine ⟨by simp [CacheManager.get, he, hfresh], ?_, ?_⟩
    · obtain ⟨q, hq, hsnd⟩ := Option.map_eq_some'.1 he
      have hqk : q.1 = key := by simpa using List.find?_some hq
      unfold move_to_end
      rw [hq]
      simp [dictKeys, hqk]
    · rw [dict_lookup_move_to_end]
      exact he
  · cases he : dict_lookup s.cache key with
    | none => simp [CacheManager.get, he]
    | some e =>
      by_cases hexp : now - e.timestamp > e.ttl
      · simp [CacheManager.get, he, hexp]
      · simp [CacheManager.get, he, hexp]

/-- Concrete instance of C4: a store holding only `"k"` (inserted at time 0,
ttl 1) read at time 5 discovers the expiry, deletes the entry and counts a
miss. -/
theorem C4_get_semantics_witness :
    CacheManager.get (⟨[("k", ⟨some 3, 0, 1⟩)], 100, 0, 0⟩ : CacheManager ℕ) "k" 5 =
      (none, { (⟨[("k", ⟨some 3, 0, 1⟩)], 100, 0, 0⟩ : CacheManager ℕ) with
        cache := dict_del [("k", ⟨some 3, 0, 1⟩)] "k", misses := 0 + 1 })
    ∧ dict_lookup (dict_del ([("k", ⟨some 3, (0 : ℤ), 1⟩)] :
        List (String × CacheEntry ℕ)) "k") "k" = none :=
  (C4_get_semantics (⟨[("k", ⟨some 3, 0, 1⟩)], 100, 0, 0⟩ : CacheManager ℕ) "k" 5).2.1
    ⟨some 3, 0, 1⟩ (by decide) (by decide)

/-- Claim C9: a stored value of `None` is indistinguishable from a miss at
the `get_or_set` level: `get` on an unexpired key holding `None` counts a
hit, touches the key, and returns `None`; consequently `get_or_set`
re-invokes the factory (one evaluation) and re-stores its result under the
key with a fresh timestamp — `None`-valued results are never memoized. -/
theorem C9_none_not_memoized {γ ε : Type} (s : CacheManager γ) (key : String)
    (ts tl ttl2 now : ℤ) (w : Option γ)
    (hl : dict_lookup s.cache key = some ⟨none, ts, tl⟩)
    (hfresh : ¬ now - ts > tl) :
    CacheManager.get s key now =
      (none, { s with cache := move_to_end s.cache key, hits := s.hits + 1 })
    ∧ (CacheManager.get_or_set s key (Except.ok w : Except ε (Option γ)) ttl2 now).2.2 = 1
    ∧ (CacheManager.get_or_set s key (Except.ok w : Except ε (Option γ)) ttl2 now).1
        = Except.ok (w, false)
    ∧ dict_lookup ((CacheManager.get_or_set s key
        (Except.ok w : Except ε (Option γ)) ttl2 now).2.1).cache key
        = some ⟨w, now, ttl2⟩ := by
  have hget : CacheManager.get s key now =
      (none, { s with cache := move_to_end s.cache key, hits := s.hits + 1 }) := by
    simp [CacheManager.get, hl, hfresh]
  have hmv : dict_lookup (move_to_end s.cache key) key = some ⟨none, ts, tl⟩ := by
    rw [dict_lookup_move_to_end]
    exact hl
  have hset : CacheManager.set
      ({ s with cache := move_to_end s.cache key, hits := s.hits + 1 }) key w ttl2 now =
      some { s with
        cache := move_to_end (dict_assign (move_to_end s.cache key) key ⟨w, now, ttl2⟩) key,
        hits := s.hits + 1 } := by
    simp [CacheManager.set, hmv]
  refine ⟨hget, ?_, ?_, ?_⟩ <;>
    simp [CacheManager.get_or_set, hget, hset, dict_lookup_move_to_end,
      dict_lookup_assign_self]

/-- Concrete instance of C9: reading `"k" ↦ None` (unexpired) through
`get_or_set` evaluates the factory once more and re-stores its result. -/
theorem C9_none_not_memoized_witness :
    (CacheManager.get_or_set (⟨[("k", ⟨none, 0, 10⟩)], 100, 0, 0⟩ : CacheManager ℕ)
        "k" (Except.ok (some 42) : Except String (Option ℕ)) 7 1).2.2 = 1
    ∧ (CacheManager.get_or_set (⟨[("k", ⟨none, 0, 10⟩)], 100, 0, 0⟩ : CacheManager ℕ)
        "k" (Except.ok (some 42) : Except String (Option ℕ)) 7 1).1
        = Except.ok (some 42, false)
    ∧ dict_lookup ((CacheManager.get_or_set
        (⟨[("k", ⟨none, 0, 10⟩)], 100, 0, 0⟩ : CacheManager ℕ)
        "k" (Except.ok (some 42) : Except String (Option ℕ)) 7 1).2.1).cache "k"
        = some ⟨some 42, 1, 7⟩ := by
  have h := C9_none_not_memoized (⟨[("k", ⟨none, 0, 10⟩)], 100, 0, 0⟩ : CacheManager ℕ)
    "k" 0 10 7 1 (some 42) (ε := String) (by decide) (by decide)
  exact ⟨h.2.1, h.2.2.1, h.2.2.2⟩

/-- C5 counterexample: the claim "the store is left unchanged for that key"
fails when the key held an expired entry: the embedded read of `get_or_set`
deletes it before the fetch runs, so after a failing fetch the key that was
present before the call is absent. -/
theorem C5_counterexample :
    dict_lookup ((⟨[("k", ⟨some 7, 0, 1⟩)], 100, 0, 0⟩ : CacheManager ℕ)).cache "k"
      = some ⟨some 7, 0, 1⟩
    ∧ (CacheManager.get_or_set (⟨[("k", ⟨some 7, 0, 1⟩)], 100, 0, 0⟩ : CacheManager ℕ)
        "k" (Except.error "boom" : Except String (Option ℕ)) 1 5).1
      = Except.error (CacheManager.PyExc.fetchError "boom")
    ∧ dict_lookup ((CacheManager.get_or_set
        (⟨[("k", ⟨some 7, 0, 1⟩)], 100, 0, 0⟩ : CacheManager ℕ)
        "k" (Except.error "boom" : Except String (Option ℕ)) 1 5).2.1).cache "k"
      = none := by
  refine ⟨by decide, by rfl, by decide⟩

/-- Claim C5 (amended): when the embedded read misses and the fetch fails,
the failure propagates unchanged to the caller and nothing is stored for
the key — any entry present for the key after the call was already present
before it (the read may only have removed an expired entry). -/
theorem C5_amended_fetch_failure {γ ε : Type} (s : CacheManager γ) (key : String)
    (e : ε) (ttl now : ℤ)
    (hmiss : (CacheManager.get s key now).1 = none) :
    CacheManager.get_or_set s key (Except.error e : Except ε (Option γ)) ttl now =
      (Except.error (CacheManager.PyExc.fetchError e), (CacheManager.get s key now).2, 1)
    ∧ ∀ en, dict_lookup ((CacheManager.get s key now).2.cache) key = some en →
        dict_lookup s.cache key = some en := by
  cases hl : dict_lookup s.cache key with
  | none =>
    have hget : CacheManager.get s key now = (none, { s with misses := s.misses + 1 }) := by
      simp [CacheManager.get, hl]
    refine ⟨by simp [CacheManager.get_or_set, hget], ?_⟩
    intro en hen
    simp only [hget] at hen
    rw [hl] at hen
    exact hen
  | some e0 =>
    by_cases hexp : now - e0.timestamp > e0.ttl
    · have hget : CacheManager.get s key now =
          (none, { s with cache := dict_del s.cache key, misses := s.misses + 1 }) := by
        simp [CacheManager.get, hl, hexp]
      refine ⟨by simp [CacheManager.get_or_set, hget], ?_⟩
      intro en hen
      simp only [hget] at hen
      rw [dict_lookup_del_self] at hen
      simp at hen
    · have hv : e0.value = none := by
        simpa [CacheManager.get, hl, hexp] using hmiss
      have hget : CacheManager.get s key now =
          (none, { s with cache := move_to_end s.cache key, hits := s.hits + 1 }) := by
        simp [CacheManager.get, hl, hexp, hv]
      refine ⟨by simp [CacheManager.get_or_set, hget], ?_⟩
      intro en hen
      simp only [hget] at hen
      rw [dict_lookup_move_to_end] at hen
      rw [hl] at hen
      exact hen

/-- Concrete instance of the amended C5: on a plain miss the failing fetch
propagates and the state is exactly the read's state (miss counted,
nothing stored). -/
theorem C5_amended_fetch_failure_witness :
    CacheManager.get_or_set (⟨[], 100, 0, 0⟩ : CacheManager ℕ) "k"
        (Except.error "boom" : Except String (Option ℕ)) 5 0 =
      (Except.error (CacheManager.PyExc.fetchError "boom"),
       (CacheManager.get (⟨[], 100, 0, 0⟩ : CacheManager ℕ) "k" 0).2, 1) :=
  (C5_amended_fetch_failure (⟨[], 100, 0, 0⟩ : CacheManager ℕ) "k" "boom" 5 0
    (by decide)).1

/-- Whenever the dict is nonempty or the capacity is at least 1, `set`
succeeds, and afterwards the key maps to the freshly written entry. -/
lemma set_lookup_self {γ : Type} (s : CacheManager γ) (key : String)
    (v : Option γ) (ttl now : ℤ) (h : s.cache ≠ [] ∨ 1 ≤ s.max_size) :
    ∃ s2, CacheManager.set s key v ttl now = some s2
      ∧ dict_lookup s2.cache key = some ⟨v, now, ttl⟩
      ∧ s2.max_size = s.max_size := by
  unfold CacheManager.set
  by_cases hc : s.cache.length ≥ s.max_size ∧ (dict_lookup s.cache key).isNone
  · rw [if_pos hc]
    cases hsc : s.cache with
    | nil =>
      exfalso
      rcases h with h | h
      · exact h hsc
      · rw [hsc] at hc
        simp at hc
        omega
    | cons p rest =>
      refine ⟨_, rfl, ?_, rfl⟩
      rw [dict_lookup_move_to_end, dict_lookup_assign_self]
  · rw [if_neg hc]
    refine ⟨_, rfl, ?_, rfl⟩
    rw [dict_lookup_move_to_end, dict_lookup_assign_self]

/-- C6 counterexample: with a factory whose result is `None`, two
sequential `get_or_set` calls on the same fresh key evaluate the factory
once each — two evaluations in total, not one — because the stored `None`
reads back as a miss. -/
theorem C6_counterexample :
    (CacheManager.get_or_set (⟨[], 100, 0, 0⟩ : CacheManager ℕ) "k"
        (Except.ok none : Except String (Option ℕ)) 10 0).2.2
      + (CacheManager.get_or_set
          ((CacheManager.get_or_set (⟨[], 100, 0, 0⟩ : CacheManager ℕ) "k"
            (Except.ok none : Except String (Option ℕ)) 10 0).2.1) "k"
          (Except.ok none : Except String (Option ℕ)) 10 1).2.2 = 2
    ∧ (CacheManager.get_or_set (⟨[], 100, 0, 0⟩ : CacheManager ℕ) "k"
        (Except.ok none : Except String (Option ℕ)) 10 0).1
      = Except.ok (none, false)
    ∧ (CacheManager.get_or_set
          ((CacheManager.get_or_set (⟨[], 100, 0, 0⟩ : CacheManager ℕ) "k"
            (Except.ok none : Except String (Option ℕ)) 10 0).2.1) "k"
          (Except.ok none : Except String (Option ℕ)) 10 1).1
      = Except.ok (none, false) := by
  refine ⟨by decide, by rfl, by rfl⟩

/-- Claim C6 (amended): two sequential `get_or_set` calls with the same
key, factory and ttl — the key initially uncached, the capacity at least 1,
the second call within the ttl — return the factory's result both times and
evaluate the factory only once in total, provided the factory succeeds with
a non-`None` result (a `None` result is refetched on every call); after the
second call `get_age` reports a non-absent age `t2 - t1 ≥ 0`. -/
theorem C6_amended_memoization {γ ε : Type} (s : CacheManager γ) (key : String)
    (v : γ) (ttl t1 t2 : ℤ)
    (habs : dict_lookup s.cache key = none)
    (hcap : 1 ≤ s.max_size)
    (h12 : t1 ≤ t2)
    (httl : t2 - t1 ≤ ttl) :
    (CacheManager.get_or_set s key (Except.ok (some v) : Except ε (Option γ)) ttl t1).1
      = Except.ok (some v, false)
    ∧ (CacheManager.get_or_set s key (Except.ok (some v) : Except ε (Option γ)) ttl t1).2.2 = 1
    ∧ (CacheManager.get_or_set
        ((CacheManager.get_or_set s key (Except.ok (some v) : Except ε (Option γ)) ttl t1).2.1)
        key (Except.ok (some v) : Except ε (Option γ)) ttl t2).1
      = Except.ok (some v, true)
    ∧ (CacheManager.get_or_set
        ((CacheManager.get_or_set s key (Except.ok (some v) : Except ε (Option γ)) ttl t1).2.1)
        key (Except.ok (some v) : Except ε (Option γ)) ttl t2).2.2 = 0
    ∧ (CacheManager.get_age
        ((CacheManager.get_or_set
          ((CacheManager.get_or_set s key (Except.ok (some v) : Except ε (Option γ)) ttl t1).2.1)
          key (Except.ok (some v) : Except ε (Option γ)) ttl t2).2.1) key t2).1
      = some (t2 - t1)
    ∧ 0 ≤ t2 - t1 := by
  have hget1 : CacheManager.get s key t1 = (none, { s with misses := s.misses + 1 }) := by
    simp [CacheManager.get, habs]
  obtain ⟨s2, hset, hl2, hmax2⟩ :=
    set_lookup_self ({ s with misses := s.misses + 1 }) key (some v) ttl t1
      (Or.inr (by simpa using hcap))
  have hfirst : CacheManager.get_or_set s key (Except.ok (some v) : Except ε (Option γ)) ttl t1
      = (Except.ok (some v, false), s2, 1) := by
    simp [CacheManager.get_or_set, hget1, hset]
  have hfresh : ¬ t2 - t1 > ttl := by omega
  have hget2 : CacheManager.get s2 key t2 =
      (some v, { s2 with cache := move_to_end s2.cache key, hits := s2.hits + 1 }) := by
    simp [CacheManager.get, hl2, hfresh]
  have hsecond : CacheManager.get_or_set s2 key
      (Except.ok (some v) : Except ε (Option γ)) ttl t2
      = (Except.ok (some v, true),
         { s2 with cache := move_to_end s2.cache key, hits := s2.hits + 1 }, 0) := by
    simp [CacheManager.get_or_set, hget2]
  have hage : dict_lookup (move_to_end s2.cache key) key = some ⟨some v, t1, ttl⟩ := by
    rw [dict_lookup_move_to_end]
    exact hl2
  refine ⟨by rw [hfirst], by rw [hfirst], ?_, ?_, ?_, by omega⟩
  · rw [hfirst]
    simp only
    rw [hsecond]
  · rw [hfirst]
    simp only
    rw [hsecond]
  · rw [hfirst]
    simp only
    rw [hsecond]
    simp only [CacheManager.get_age, hage]

/-- Concrete instance of the amended C6: key `"k"`, value 42, ttl 10,
calls at times 0 and 3. -/
theorem C6_amended_memoization_witness :
    (CacheManager.get_or_set (⟨[], 100, 0, 0⟩ : CacheManager ℕ) "k"
        (Except.ok (some 42) : Except String (Option ℕ)) 10 0).1
      = Except.ok (some 42, false)
    ∧ (CacheManager.get_or_set (⟨[], 100, 0, 0⟩ : CacheManager ℕ) "k"
        (Except.ok (some 42) : Except String (Option ℕ)) 10 0).2.2 = 1
    ∧ (CacheManager.get_or_set
        ((CacheManager.get_or_set (⟨[], 100, 0, 0⟩ : CacheManager ℕ) "k"
          (Except.ok (some 42) : Except String (Option ℕ)) 10 0).2.1)
        "k" (Except.ok (some 42) : Except String (Option ℕ)) 10 3).1
      = Except.ok (some 42, true)
    ∧ (CacheManager.get_or_set
        ((CacheManager.get_or_set (⟨[], 100, 0, 0⟩ : CacheManager ℕ) "k"
          (Except.ok (some 42) : Except String (Option ℕ)) 10 0).2.1)
        "k" (Except.ok (some 42) : Except String (Option ℕ)) 10 3).2.2 = 0
    ∧ (CacheManager.get_age
        ((CacheManager.get_or_set
          ((CacheManager.get_or_set (⟨[], 100, 0, 0⟩ : CacheManager ℕ) "k"
            (Except.ok (some 42) : Except String (Option ℕ)) 10 0).2.1)
          "k" (Except.ok (some 42) : Except String (Option ℕ)) 10 3).2.1) "k" 3).1
      = some (3 - 0)
    ∧ (0 : ℤ) ≤ 3 - 0 :=
  C6_amended_memoization (⟨[], 100, 0, 0⟩ : CacheManager ℕ) "k" 42 10 0 3
    (by decide) (by decide) (by decide) (by decide)

section CapacityLemmas

variable {γ : Type}

lemma dict_lookup_eq_none_iff (l : List (String × CacheEntry γ)) (k : String) :
    dict_lookup l k = none ↔ k ∉ dictKeys l := by
  unfold dict_lookup dictKeys
  rw [Option.map_eq_none', List.find?_eq_none]
  constructor
  · intro h hk
    obtain ⟨p, hp, hpk⟩ := List.mem_map.1 hk
    exact absurd (by simpa using hpk) (by simpa using h p hp)
  · intro h p hp
    simp only [decide_eq_true_eq]
    intro hpk
    exact h (List.mem_map.2 ⟨p, hp, hpk⟩)

lemma length_move_to_end_le (l : List (String × CacheEntry γ)) (k : String) :
    (move_to_end l k).length ≤ l.length := by
  unfold move_to_end
  cases hf : l.find? (fun p => p.1 = k) with
  | none => exact le_refl _
  | some q =>
    have hq : q.1 = k := by simpa using List.find?_some hf
    have hlt : (l.filter (fun p => ¬ p.1 = k)).length < l.length := by
      apply List.length_filter_lt_length_iff_exists.2
      exact ⟨q, List.mem_of_find?_eq_some hf, by simp [hq]⟩
    simpa using hlt

lemma length_assign_le (l : List (String × CacheEntry γ)) (k : String) (e : CacheEntry γ) :
    (dict_assign l k e).length ≤ l.length + 1 := by
  unfold dict_assign
  by_cases h : (l.find? (fun p => p.1 = k)).isSome
  · simp [h]
  · simp [h]

lemma length_assign_of_present (l : List (String × CacheEntry γ)) (k : String)
    (e : CacheEntry γ) (h : (l.find? (fun p => p.1 = k)).isSome) :
    (dict_assign l k e).length = l.length := by
  simp [dict_assign, h]

lemma dictKeys_assign_present (l : List (String × CacheEntry γ)) (k : String)
    (e : CacheEntry γ) (h : (l.find? (fun p => p.1 = k)).isSome) :
    dictKeys (dict_assign l k e) = dictKeys l := by
  unfold dict_assign dictKeys
  rw [if_pos h, List.map_map]
  apply List.map_congr_left
  intro p _
  by_cases hp : p.1 = k
  · simp [hp]
  · simp [hp]

lemma dictKeys_assign_absent (l : List (String × CacheEntry γ)) (k : String)
    (e : CacheEntry γ) (h : l.find? (fun p => p.1 = k) = none) :
    dictKeys (dict_assign l k e) = dictKeys l ++ [k] := by
  unfold dict_assign dictKeys
  rw [h]
  simp

lemma dictKeys_move_to_end_subset (l : List (String × CacheEntry γ)) (k : String) :
    ∀ x, x ∈ dictKeys (move_to_end l k) → x ∈ dictKeys l := by
  intro x hx
  unfold move_to_end at hx
  cases hf : l.find? (fun p => p.1 = k) with
  | none =>
    rw [hf] at hx
    exact hx
  | some q =>
    rw [hf] at hx
    unfold dictKeys at hx ⊢
    rw [List.map_append] at hx
    rcases List.mem_append.1 hx with hx | hx
    · obtain ⟨p, hp, hpk⟩ := List.mem_map.1 hx
      exact List.mem_map.2 ⟨p, List.mem_of_mem_filter hp, hpk⟩
    · simp only [List.map_cons, List.map_nil, List.mem_singleton] at hx
      subst hx
      exact List.mem_map.2 ⟨q, List.mem_of_find?_eq_some hf, rfl⟩

lemma mem_dictKeys_move_to_end (l : List (String × CacheEntry γ)) (k x : String)
    (h : x ∈ dictKeys l) : x ∈ dictKeys (move_to_end l k) := by
  unfold move_to_end
  cases hf : l.find? (fun p => p.1 = k) with
  | none => exact h
  | some q =>
    have hq : q.1 = k := by simpa using List.find?_some hf
    unfold dictKeys at h ⊢
    rw [List.map_append]
    by_cases hxk : x = k
    · subst hxk
      apply List.mem_append.2
      right
      simp [hq]
    · obtain ⟨p, hp, hpk⟩ := List.mem_map.1 h
      apply List.mem_append.2
      left
      refine List.mem_map.2 ⟨p, List.mem_filter.2 ⟨hp, ?_⟩, hpk⟩
      subst hpk
      simpa using hxk

lemma length_del_of_found (l : List (String × CacheEntry γ)) (k : String)
    (hn : (dictKeys l).Nodup) (hf : (l.find? (fun p => p.1 = k)).isSome) :
    (l.filter (fun p => ¬ p.1 = k)).length + 1 = l.length := by
  induction l with
  | nil => simp at hf
  | cons p t ih =>
    simp only [dictKeys, List.map_cons, List.nodup_cons] at hn
    by_cases hp : p.1 = k
    · have ht : t.filter (fun q => ¬ q.1 = k) = t := by
        apply List.filter_eq_self.2
        intro a ha
        have hak : ¬ a.1 = k := by
          intro hak
          exact hn.1 (List.mem_map.2 ⟨a, ha, by rw [hak, hp]⟩)
        simpa using hak
      have hdrop : List.filter (fun q => ¬ q.1 = k) (p :: t) = t := by
        rw [List.filter_cons_of_neg (by simp [hp])]
        exact ht
      rw [hdrop]
      simp
    · have hft : (t.find? (fun q => q.1 = k)).isSome := by
        rw [List.find?_cons_of_neg] at hf
        · exact hf
        · simp [hp]
      have hih := ih hn.2 hft
      have hkeep : List.filter (fun q => ¬ q.1 = k) (p :: t)
          = p :: List.filter (fun q => ¬ q.1 = k) t := by
        rw [List.filter_cons_of_pos (by simp [hp])]
      rw [hkeep]
      simp only [List.length_cons]
      omega

lemma length_move_to_end_of_nodup (l : List (String × CacheEntry γ)) (k : String)
    (hn : (dictKeys l).Nodup) : (move_to_end l k).length = l.length := by
  unfold move_to_end
  cases hf : l.find? (fun p => p.1 = k) with
  | none => rfl
  | some q =>
    have := length_del_of_found l k hn (by simp [hf])
    simpa using this

lemma set_length_le (s : CacheManager γ) (k : String) (v : Option γ) (ttl now : ℤ)
    (s' : CacheManager γ) (h : CacheManager.set s k v ttl now = some s')
    (hlen : s.cache.length ≤ s.max_size) : s'.cache.length ≤ s.max_size := by
  unfold CacheManager.set at h
  by_cases hc : s.cache.length ≥ s.max_size ∧ (dict_lookup s.cache k).isNone
  · rw [if_pos hc] at h
    cases hsc : s.cache with
    | nil =>
      rw [hsc] at h
      exact absurd h (by simp)
    | cons p rest =>
      rw [hsc] at h
      have hs' : s' = { s with
          cache := move_to_end (dict_assign rest k ⟨v, now, ttl⟩) k } :=
        (Option.some.inj h).symm
      have h1 : (move_to_end (dict_assign rest k ⟨v, now, ttl⟩) k).length
          ≤ rest.length + 1 :=
        le_trans (length_move_to_end_le _ _) (length_assign_le _ _ _)
      have h2 : rest.length + 1 = s.cache.length := by
        rw [hsc]
        rfl
      rw [hs']
      simp only
      omega
  · rw [if_neg hc] at h
    have hs' : s' = { s with
        cache := move_to_end (dict_assign s.cache k ⟨v, now, ttl⟩) k } :=
      (Option.some.inj h).symm
    rw [hs']
    simp only
    rcases not_and_or.1 hc with h1 | h1
    · have h2 := length_move_to_end_le (dict_assign s.cache k ⟨v, now, ttl⟩) k
      have h3 := length_assign_le s.cache k ⟨v, now, ttl⟩
      omega
    · have hsome : (s.cache.find? (fun p => p.1 = k)).isSome := by
        unfold dict_lookup at h1
        simp only [Option.isNone_iff_eq_none, Option.map_eq_none'] at h1
        simpa [Option.isSome_iff_ne_none] using h1
      have := length_move_to_end_le (dict_assign s.cache k ⟨v, now, ttl⟩) k
      rw [length_assign_of_present s.cache k _ hsome] at this
      omega

lemma get_state_cases (s : CacheManager γ) (k : String) (now : ℤ) :
    ((CacheManager.get s k now).2.cache = s.cache
      ∨ (CacheManager.get s k now).2.cache = dict_del s.cache k
      ∨ (CacheManager.get s k now).2.cache = move_to_end s.cache k)
    ∧ (CacheManager.get s k now).2.max_size = s.max_size := by
  cases hl : dict_lookup s.cache k with
  | none =>
    have hg : CacheManager.get s k now = (none, { s with misses := s.misses + 1 }) := by
      simp [CacheManager.get, hl]
    rw [hg]
    exact ⟨Or.inl rfl, rfl⟩
  | some e =>
    by_cases hexp : now - e.timestamp > e.ttl
    · have hg : CacheManager.get s k now =
          (none, { s with cache := dict_del s.cache k, misses := s.misses + 1 }) := by
        simp [CacheManager.get, hl, hexp]
      rw [hg]
      exact ⟨Or.inr (Or.inl rfl), rfl⟩
    · have hg : CacheManager.get s k now =
          (e.value, { s with cache := move_to_end s.cache k, hits := s.hits + 1 }) := by
        simp [CacheManager.get, hl, hexp]
      rw [hg]
      exact ⟨Or.inr (Or.inr rfl), rfl⟩

lemma get_length_le (s : CacheManager γ) (k : String) (now : ℤ) :
    (CacheManager.get s k now).2.cache.length ≤ s.cache.length := by
  rcases (get_state_cases s k now).1 with h | h | h
  · rw [h]
  · rw [h]
    exact List.length_filter_le _ _
  · rw [h]
    exact length_move_to_end_le _ _

end CapacityLemmas

lemma get_age_snd {γ : Type} (s : CacheManager γ) (k : String) (now : ℤ) :
    (CacheManager.get_age s k now).2 = s := by
  unfold CacheManager.get_age
  cases dict_lookup s.cache k <;> rfl

lemma find?_eq_none_of_not_mem_keys {γ : Type} {l : List (String × CacheEntry γ)}
    {k : String} (h : k ∉ dictKeys l) : l.find? (fun p => p.1 = k) = none := by
  apply List.find?_eq_none.2
  intro x hx
  simp only [decide_eq_true_eq]
  intro hxk
  exact h (List.mem_map.2 ⟨x, hx, hxk⟩)

/-- Claim C3: with no-duplicate keys and the store within capacity, every
public operation (`set`, `get`, `get_or_set`, `get_age`, `clear`,
`get_stats`) leaves at most `max_size` entries; `set` of a new key on a
full store evicts the least-recently-used (head) entry before inserting —
the result is built from the popped tail and has exactly `max_size`
entries, with the old head key gone — and `set` of an existing key evicts
nothing (same entry count, every key still present). -/
theorem C3_capacity_invariant {γ ε : Type} (s : CacheManager γ)
    (k k2 k3 : String) (v : Option γ) (factory : Except ε (Option γ)) (ttl now : ℤ)
    (hn : (dictKeys s.cache).Nodup)
    (hlen : s.cache.length ≤ s.max_size) :
    (∀ s', CacheManager.set s k v ttl now = some s' → s'.cache.length ≤ s.max_size)
    ∧ (CacheManager.get s k2 now).2.cache.length ≤ s.max_size
    ∧ (CacheManager.get_or_set s k3 factory ttl now).2.1.cache.length ≤ s.max_size
    ∧ (CacheManager.get_age s k2 now).2.cache.length ≤ s.max_size
    ∧ (CacheManager.clear s).cache.length ≤ s.max_size
    ∧ (CacheManager.get_stats s).2.cache.length ≤ s.max_size
    ∧ (∀ p rest, s.cache = p :: rest → s.cache.length = s.max_size →
        dict_lookup s.cache k = none →
        CacheManager.set s k v ttl now =
          some { s with cache := move_to_end (dict_assign rest k ⟨v, now, ttl⟩) k }
        ∧ dict_lookup (move_to_end (dict_assign rest k ⟨v, now, ttl⟩) k) p.1 = none
        ∧ (move_to_end (dict_assign rest k ⟨v, now, ttl⟩) k).length = s.max_size)
    ∧ (dict_lookup s.cache k ≠ none → ∀ s', CacheManager.set s k v ttl now = some s' →
        s'.cache.length = s.cache.length
        ∧ ∀ k', k' ∈ dictKeys s.cache → k' ∈ dictKeys s'.cache) := by
  refine ⟨?_, ?_, ?_, ?_, ?_, ?_, ?_, ?_⟩
  · intro s' h
    exact set_length_le s k v ttl now s' h hlen
  · exact le_trans (get_length_le s k2 now) hlen
  · cases hg : CacheManager.get s k3 now with
    | mk r s1 =>
      have hlen1 : s1.cache.length ≤ s.cache.length := by
        have := get_length_le s k3 now
        rw [hg] at this
        exact this
      have hmax1 : s1.max_size = s.max_size := by
        have := (get_state_cases s k3 now).2
        rw [hg] at this
        exact this
      cases r with
      | some v0 =>
        simp only [CacheManager.get_or_set, hg]
        omega
      | none =>
        cases factory with
        | error e =>
          simp only [CacheManager.get_or_set, hg]
          omega
        | ok w =>
          cases hset : CacheManager.set s1 k3 w ttl now with
          | none =>
            simp only [CacheManager.get_or_set, hg, hset]
            omega
          | some s2 =>
            have h2 := set_length_le s1 k3 w ttl now s2 hset (by omega)
            simp only [CacheManager.get_or_set, hg, hset]
            omega
  · rw [get_age_snd]
    exact hlen
  · simp [CacheManager.clear]
  · exact hlen
  · intro p rest hsc hfull hnew
    have hknotin : k ∉ dictKeys s.cache := (dict_lookup_eq_none_iff _ _).1 hnew
    have hkeys : dictKeys s.cache = p.1 :: dictKeys rest := by
      rw [hsc]
      rfl
    have hkp : ¬ p.1 = k := by
      intro he
      apply hknotin
      rw [hkeys, he]
      exact List.mem_cons_self _ _
    have hkrest : k ∉ dictKeys rest := by
      intro hm
      apply hknotin
      rw [hkeys]
      exact List.mem_cons_of_mem _ hm
    have hfr : rest.find? (fun q => q.1 = k) = none := find?_eq_none_of_not_mem_keys hkrest
    have hka : dictKeys (dict_assign rest k ⟨v, now, ttl⟩) = dictKeys rest ++ [k] :=
      dictKeys_assign_absent rest k _ hfr
    have hpn : p.1 ∉ dictKeys rest := by
      have := hn
      rw [hkeys] at this
      exact (List.nodup_cons.1 this).1
    have hnassign : (dictKeys (dict_assign rest k ⟨v, now, ttl⟩)).Nodup := by
      rw [hka]
      have hrest : (dictKeys rest).Nodup := by
        have := hn
        rw [hkeys] at this
        exact (List.nodup_cons.1 this).2
      simpa [List.nodup_append] using ⟨hrest, hkrest⟩
    have hcond : s.cache.length ≥ s.max_size ∧ (dict_lookup s.cache k).isNone := by
      constructor
      · omega
      · rw [hnew]
        rfl
    have hset : CacheManager.set s k v ttl now =
        some { s with cache := move_to_end (dict_assign rest k ⟨v, now, ttl⟩) k } := by
      unfold CacheManager.set
      rw [if_pos hcond, hsc]
    refine ⟨hset, ?_, ?_⟩
    · apply (dict_lookup_eq_none_iff _ _).2
      intro hmem
      have := dictKeys_move_to_end_subset _ k p.1 hmem
      rw [hka] at this
      rcases List.mem_append.1 this with h | h
      · exact hpn h
      · simp only [List.mem_singleton] at h
        exact hkp h
    · rw [length_move_to_end_of_nodup _ _ hnassign]
      have : (dict_assign rest k ⟨v, now, ttl⟩).length = rest.length + 1 := by
        unfold dict_assign
        rw [hfr]
        simp
      rw [this]
      have : s.cache.length = rest.length + 1 := by
        rw [hsc]
        rfl
      omega
  · intro hpresent s' hset'
    have hsome : (s.cache.find? (fun p => p.1 = k)).isSome := by
      unfold dict_lookup at hpresent
      rcases ho : s.cache.find? (fun p => p.1 = k) with _ | q
      · rw [ho] at hpresent
        simp at hpresent
      · rw [ho]
        rfl
    have hcond : ¬ (s.cache.length ≥ s.max_size ∧ (dict_lookup s.cache k).isNone) := by
      intro hc
      have := hc.2
      unfold dict_lookup at this
      rcases ho : s.cache.find? (fun p => p.1 = k) with _ | q
      · rw [ho] at hsome
        simp at hsome
      · rw [ho] at this
        simp at this
    have hset : CacheManager.set s k v ttl now =
        some { s with cache := move_to_end (dict_assign s.cache k ⟨v, now, ttl⟩) k } := by
      unfold CacheManager.set
      rw [if_neg hcond]
    have hs' : s' = { s with cache := move_to_end (dict_assign s.cache k ⟨v, now, ttl⟩) k } := by
      rw [hset] at hset'
      exact (Option.some.inj hset').symm
    have hka : dictKeys (dict_assign s.cache k ⟨v, now, ttl⟩) = dictKeys s.cache :=
      dictKeys_assign_present s.cache k _ hsome
    constructor
    · rw [hs']
      simp only
      rw [length_move_to_end_of_nodup _ _ (by rw [hka]; exact hn)]
      exact length_assign_of_present s.cache k _ hsome
    · intro k' hk'
      rw [hs']
      simp only
      apply mem_dictKeys_move_to_end
      rw [hka]
      exact hk'

/-- Concrete instance of C3: a full 2-entry store; `set` of the new key
`"c"` evicts the least-recently-used key `"a"` and stays at capacity. -/
theorem C3_capacity_invariant_witness :
    CacheManager.set (⟨[("a", ⟨some 1, 0, 5⟩), ("b", ⟨some 2, 0, 5⟩)], 2, 0, 0⟩ :
        CacheManager ℕ) "c" (some 5) 9 1 =
      some { (⟨[("a", ⟨some 1, 0, 5⟩), ("b", ⟨some 2, 0, 5⟩)], 2, 0, 0⟩ : CacheManager ℕ) with
        cache := move_to_end (dict_assign [("b", ⟨some 2, 0, 5⟩)] "c" ⟨some 5, 1, 9⟩) "c" }
    ∧ dict_lookup (move_to_end (dict_assign [("b", ⟨some 2, (0:ℤ), 5⟩)] "c"
        ⟨some 5, 1, 9⟩) "c") "a" = none
    ∧ (move_to_end (dict_assign [("b", ⟨some 2, (0:ℤ), (5:ℤ)⟩)] "c"
        ⟨some 5, 1, 9⟩) "c").length = 2 :=
  ((C3_capacity_invariant (⟨[("a", ⟨some 1, 0, 5⟩), ("b", ⟨some 2, 0, 5⟩)], 2, 0, 0⟩ :
      CacheManager ℕ) "c" "a" "c" (some 5) (Except.ok none : Except String (Option ℕ)) 9 1
    (by decide) (by decide)).2.2.2.2.2.2.1)
    ("a", ⟨some 1, 0, 5⟩) [("b", ⟨some 2, 0, 5⟩)] rfl (by decide) (by decide)

/-!
Key derivation (`CacheManager._generate_key`).  Python `sorted` compares
the `(name, value)` tuples lexicographically; since keyword-argument names
in a call are pairwise distinct the comparison is decided by the names,
which Python compares as strings by code point.  Arguments are modelled as
`(name, str(value))` pairs: the stringification `str(v)` has already been
applied, which is exactly the granularity at which the claim speaks
("modulo stringification").
-/

/-- Code-point lexicographic comparison of character lists (Python string
`<=`). -/
def chars_le : List Char → List Char → Bool
  | [], _ => true
  | _ :: _, [] => false
  | a :: as, b :: bs =>
    if a.toNat < b.toNat then true
    else if b.toNat < a.toNat then false
    else chars_le as bs

/-- Python string comparison on the underlying code points. -/
def str_le (s t : String) : Bool := chars_le s.data t.data

/-- `"_".join(...)` over already-rendered `name=value` pairs. -/
def join_args : List (String × String) → String
  | [] => ""
  | [p] => p.1 ++ "=" ++ p.2
  | p :: q :: ps => p.1 ++ "=" ++ p.2 ++ "_" ++ join_args (q :: ps)

/-- `CacheManager._generate_key` of `cache_manager.py`: sort the kwargs by
name, join as `name=value` with `"_"`, and prefix `f"{func_name}:"`. -/
def generate_key (func_name : String) (kwargs : List (String × String)) : String :=
  func_name ++ ":" ++
    join_args (List.insertionSort (fun p q => str_le p.1 q.1) kwargs)

lemma chars_le_total (a b : List Char) : chars_le a b ∨ chars_le b a := by
  induction a generalizing b with
  | nil => left; rfl
  | cons x xs ih =>
    cases b with
    | nil => right; rfl
    | cons y ys =>
      by_cases h1 : x.toNat < y.toNat
      · left
        simp [chars_le, h1]
      · by_cases h2 : y.toNat < x.toNat
        · right
          simp [chars_le, h2]
        · rcases ih ys with h | h
          · left
            simpa [chars_le, h1, h2] using h
          · right
            simpa [chars_le, h1, h2] using h

lemma chars_le_antisymm {a b : List Char} (h1 : chars_le a b) (h2 : chars_le b a) :
    a = b := by
  induction a generalizing b with
  | nil =>
    cases b with
    | nil => rfl
    | cons y ys => simp [chars_le] at h2
  | cons x xs ih =>
    cases b with
    | nil => simp [chars_le] at h1
    | cons y ys =>
      by_cases hxy : x.toNat < y.toNat
      · exfalso
        simp [chars_le, hxy, Nat.lt_asymm hxy] at h2
      · by_cases hyx : y.toNat < x.toNat
        · exfalso
          simp [chars_le, hxy, hyx] at h1
        · have hx : x = y := by
            have hn : x.toNat = y.toNat := by omega
            have hv : x.val = y.val := UInt32.toNat.inj hn
            exact Char.eq_of_val_eq hv
          subst hx
          simp only [chars_le, if_neg hxy, if_neg hyx] at h1 h2
          rw [ih h1 h2]

lemma chars_le_trans {a b c : List Char} (h1 : chars_le a b) (h2 : chars_le b c) :
    chars_le a c := by
  induction a generalizing b c with
  | nil => rfl
  | cons x xs ih =>
    cases b with
    | nil => simp [chars_le] at h1
    | cons y ys =>
      cases c with
      | nil => simp [chars_le] at h2
      | cons z zs =>
        simp only [chars_le] at h1 h2 ⊢
        by_cases hxy : x.toNat < y.toNat <;> by_cases hyz : y.toNat < z.toNat
        · simp [if_pos (by omega : x.toNat < z.toNat)]
        · simp only [if_pos hxy] at h1
          simp only [if_neg hyz] at h2
          by_cases hzy : z.toNat < y.toNat
          · simp [hzy] at h2
          · have : y.toNat = z.toNat := by omega
            simp [if_pos (by omega : x.toNat < z.toNat)]
        · simp only [if_neg hxy] at h1
          by_cases hyx : y.toNat < x.toNat
          · simp [hyx] at h1
          · have : x.toNat = y.toNat := by omega
            simp [if_pos (by omega : x.toNat < z.toNat)]
        · simp only [if_neg hxy] at h1
          simp only [if_neg hyz] at h2
          by_cases hyx : y.toNat < x.toNat
          · simp [hyx] at h1
          · by_cases hzy : z.toNat < y.toNat
            · simp [hzy] at h2
            · have hxz : ¬ x.toNat < z.toNat := by omega
              have hzx : ¬ z.toNat < x.toNat := by omega
              simp only [if_neg hyx] at h1
              simp only [if_neg hzy] at h2
              simp only [if_neg hxz, if_neg hzx]
              exact ih h1 h2

lemma str_data_eq {s t : String} (h : s.data = t.data) : s = t := by
  cases s
  cases t
  exact congrArg String.mk h

lemma str_append_inj_right {a b c : String} (h : a ++ b = a ++ c) : b = c := by
  have hd : (a ++ b).data = (a ++ c).data := congrArg String.data h
  rw [String.data_append, String.data_append] at hd
  exact str_data_eq (List.append_cancel_left hd)

instance : IsTotal (String × String) (fun p q => str_le p.1 q.1) :=
  ⟨fun a b => chars_le_total a.1.data b.1.data⟩

instance : IsTrans (String × String) (fun p q => str_le p.1 q.1) :=
  ⟨fun _ _ _ h1 h2 => chars_le_trans h1 h2⟩

instance : IsAntisymm String (fun a b => str_le a b) :=
  ⟨fun _ _ h1 h2 => str_data_eq (chars_le_antisymm h1 h2)⟩

/-- Two sorted association lists with duplicate-free name column that are
permutations of each other are equal. -/
lemma sorted_perm_nodupkeys_eq (l : List (String × String)) :
    ∀ l' : List (String × String), l.Perm l' → (l.map Prod.fst).Nodup →
    List.Sorted (fun p q => str_le p.1 q.1) l →
    List.Sorted (fun p q => str_le p.1 q.1) l' → l = l' := by
  induction l with
  | nil =>
    intro l' hp _ _ _
    exact (hp.symm.eq_nil).symm
  | cons p t ih =>
    intro l' hp hn hs hs'
    cases l' with
    | nil => exact absurd hp.eq_nil (by simp)
    | cons q t' =>
      have hpq : p = q := by
        rcases List.mem_cons.1 (hp.subset (List.mem_cons_self p t)) with he | hpt'
        · exact he
        · rcases List.mem_cons.1 (hp.symm.subset (List.mem_cons_self q t')) with he | hqt
          · exact he.symm
          · have h1 : str_le p.1 q.1 := List.rel_of_sorted_cons hs q hqt
            have h2 : str_le q.1 p.1 := List.rel_of_sorted_cons hs' p hpt'
            have hk : p.1 = q.1 := str_data_eq (chars_le_antisymm h1 h2)
            exfalso
            simp only [List.map_cons, List.nodup_cons] at hn
            exact hn.1 (List.mem_map.2 ⟨q, hqt, hk.symm⟩)
      subst hpq
      have hn2 : (t.map Prod.fst).Nodup := by
        simp only [List.map_cons, List.nodup_cons] at hn
        exact hn.2
      rw [ih t' hp.cons_inv hn2 hs.of_cons hs'.of_cons]

/-- If the first halves of two separator splices avoid the separator, the
splice is unambiguous. -/
lemma sep_split (as : List Char) : ∀ (as' bs bs' : List Char),
    ('_' : Char) ∉ as → ('_' : Char) ∉ as' →
    as ++ '_' :: bs = as' ++ '_' :: bs' → as = as' ∧ bs = bs' := by
  induction as with
  | nil =>
    intro as' bs bs' _ ha' h
    cases as' with
    | nil => simpa using h
    | cons c cs =>
      exfalso
      simp only [List.nil_append, List.cons_append] at h
      have hc : c = '_' := (List.cons.inj h).1.symm
      exact ha' (by rw [hc]; exact List.mem_cons_self _ _)
  | cons a as ih =>
    intro as' bs bs' ha ha' h
    cases as' with
    | nil =>
      exfalso
      simp only [List.cons_append, List.nil_append] at h
      have hc : a = '_' := (List.cons.inj h).1
      exact ha (by rw [hc]; exact List.mem_cons_self _ _)
    | cons c cs =>
      simp only [List.cons_append] at h
      obtain ⟨hac, htail⟩ := List.cons.inj h
      have ha2 : ('_' : Char) ∉ as := fun hm => ha (List.mem_cons_of_mem _ hm)
      have ha2' : ('_' : Char) ∉ cs := fun hm => ha' (List.mem_cons_of_mem _ hm)
      obtain ⟨h1, h2⟩ := ih cs bs bs' ha2 ha2' htail
      exact ⟨by rw [hac, h1], h2⟩

/-- `"_".join` of `name=value` pairs is injective once the name column is
fixed and no value contains the separator `'_'`. -/
lemma join_args_inj (ps : List (String × String)) : ∀ qs : List (String × String),
    ps.map Prod.fst = qs.map Prod.fst →
    (∀ p ∈ ps, ('_' : Char) ∉ p.2.data) → (∀ q ∈ qs, ('_' : Char) ∉ q.2.data) →
    join_args ps = join_args qs → ps = qs := by
  induction ps with
  | nil =>
    intro qs hk _ _ _
    cases qs with
    | nil => rfl
    | cons q qs => simp at hk
  | cons p ps ih =>
    intro qs hk hfp hfq hj
    cases qs with
    | nil => simp at hk
    | cons q qs2 =>
      simp only [List.map_cons, List.cons.injEq] at hk
      obtain ⟨hk1, hk2⟩ := hk
      cases ps with
      | nil =>
        cases qs2 with
        | nil =>
          simp only [join_args] at hj
          rw [hk1] at hj
          have hv : p.2 = q.2 := str_append_inj_right hj
          cases p
          cases q
          simp only at hk1 hv
          rw [hk1, hv]
        | cons q2 qs3 => simp at hk2
      | cons p2 ps2 =>
        cases qs2 with
        | nil => simp at hk2
        | cons q2 qs3 =>
          simp only [join_args] at hj
          rw [hk1] at hj
          have hd := congrArg String.data hj
          simp only [String.data_append] at hd
          simp only [List.append_assoc, List.singleton_append] at hd
          have hd2 := List.append_cancel_left hd
          have hd3 := (List.cons.inj hd2).2
          obtain ⟨hv, hjtail⟩ := sep_split p.2.data q.2.data _ _
            (hfp p (List.mem_cons_self _ _)) (hfq q (List.mem_cons_self _ _)) hd3
          have hveq : p.2 = q.2 := str_data_eq hv
          have hrest : join_args (p2 :: ps2) = join_args (q2 :: qs3) :=
            str_data_eq hjtail
          have htl := ih (q2 :: qs3) hk2
            (fun x hx => hfp x (List.mem_cons_of_mem _ hx))
            (fun x hx => hfq x (List.mem_cons_of_mem _ hx)) hrest
          cases p
          cases q
          simp only at hk1 hveq
          rw [hk1, hveq, htl]

/-- Sorting by name is a canonical form: permuted argument lists with
duplicate-free names sort identically. -/
lemma sort_eq_of_perm (args args' : List (String × String))
    (hp : args.Perm args') (hn : (args.map Prod.fst).Nodup) :
    List.insertionSort (fun p q => str_le p.1 q.1) args =
      List.insertionSort (fun p q => str_le p.1 q.1) args' := by
  apply sorted_perm_nodupkeys_eq
  · exact (List.perm_insertionSort _ args).trans
      (hp.trans (List.perm_insertionSort _ args').symm)
  · exact ((List.perm_insertionSort _ args).map Prod.fst).symm.nodup hn
  · exact List.sorted_insertionSort _ args
  · exact List.sorted_insertionSort _ args'

/-- C7 counterexample: two calls with the same operation and argument
names but pairwise different value strings produce the same key — the
separator pattern `_name=` inside a value shifts the boundaries — so keys
can collide even when no two string forms coincide. -/
theorem C7_counterexample :
    generate_key "f" [("a", "1_c=2"), ("c", "3")]
      = generate_key "f" [("a", "1"), ("c", "2_c=3")]
    ∧ ("1_c=2" : String) ≠ "1" ∧ ("3" : String) ≠ "2_c=3" := by
  refine ⟨by rfl, by decide, by decide⟩

/-- Claim C7 (amended): key derivation is deterministic — the same
operation with the same argument mapping (any insertion order, names
distinct) yields the same key — and is injective on the argument mapping
when the rendered values contain no `'_'` separator; without that
restriction distinct mappings can collide even when all value strings
differ (see the counterexample), beyond the accepted
equal-string-forms collision. -/
theorem C7_amended_key_determinism (op : String) (args args' : List (String × String)) :
    (args.Perm args' → (args.map Prod.fst).Nodup →
      generate_key op args = generate_key op args')
    ∧ ((args.map Prod.fst).Nodup → (args'.map Prod.fst).Nodup →
        (args.map Prod.fst).Perm (args'.map Prod.fst) →
        (∀ p ∈ args, ('_' : Char) ∉ p.2.data) →
        (∀ q ∈ args', ('_' : Char) ∉ q.2.data) →
        generate_key op args = generate_key op args' →
        args.Perm args') := by
  constructor
  · intro hp hn
    unfold generate_key
    rw [sort_eq_of_perm args args' hp hn]
  · intro hn hn' hkp hfa hfa' hgen
    unfold generate_key at hgen
    have hjoin := str_append_inj_right hgen
    have hsortperm : (List.insertionSort (fun p q => str_le p.1 q.1) args).map Prod.fst
        = (List.insertionSort (fun p q => str_le p.1 q.1) args').map Prod.fst := by
      apply List.eq_of_perm_of_sorted
        (r := fun a b => (str_le a b : Prop))
      · exact (((List.perm_insertionSort _ args).map Prod.fst).trans hkp).trans
          ((List.perm_insertionSort _ args').map Prod.fst).symm
      · exact List.pairwise_map.2 (List.sorted_insertionSort _ args)
      · exact List.pairwise_map.2 (List.sorted_insertionSort _ args')
    have hsv : ∀ p ∈ List.insertionSort (fun p q => str_le p.1 q.1) args,
        ('_' : Char) ∉ p.2.data := by
      intro p hp
      exact hfa p ((List.perm_insertionSort _ args).subset hp)
    have hsv' : ∀ q ∈ List.insertionSort (fun p q => str_le p.1 q.1) args',
        ('_' : Char) ∉ q.2.data := by
      intro q hq
      exact hfa' q ((List.perm_insertionSort _ args').subset hq)
    have hsorteq := join_args_inj _ _ hsortperm hsv hsv' hjoin
    exact ((List.perm_insertionSort _ args).symm.trans
      (hsorteq ▸ (List.perm_insertionSort _ args'))).symm.symm

/-- Concrete instance of the amended C7: the same two-argument mapping in
both insertion orders derives the same key. -/
theorem C7_amended_key_determinism_witness :
    generate_key "f" [("b", "2"), ("a", "1")] = generate_key "f" [("a", "1"), ("b", "2")] :=
  (C7_amended_key_determinism "f" [("b", "2"), ("a", "1")] [("a", "1"), ("b", "2")]).1
    (by decide) (by decide)

/-!
Pagination engine: `paginate_by_tokens` of
`src/yfin_mcp/pagination_utils.py` (the adaptive-halving strategy), for the
list-shaped dataset branch (`data: list`; each item is rendered with
`str(item)`, modelled for string items, on which `str` is the identity).

* The `while items_per_page > 0` sizing loop is modelled fuel-indexed:
  result `none` means the loop has not exited within `fuel` iterations
  (the source loop can in fact run forever — claim C1).
* The float check `estimate_tokens(test_text) <= max_tokens * 0.8` is
  modelled exactly as `5 * estimate_tokens ≤ 4 * max_tokens`; the binary
  double closest to 0.8 exceeds 4/5 by about 4.4e-17, which can only
  change the comparison when the two sides are exactly at the boundary —
  every concrete input used below sits far from it.
* `f"{cache_age:.1f}"` is modelled by `fmt1` via integer arithmetic on the
  reduced fraction (round half up at exact .05 ties, where float
  formatting may round half to even; no claim touches a tie).
-/

/-- `PaginationResult` of `src/yfin_mcp/pagination_utils.py`. -/
structure PaginationResult where
  formatted_text : String
  page : ℕ
  total_pages : ℕ
  total_items : ℕ
  items_on_page : ℕ
  deriving Repr, DecidableEq

/-- `estimate_tokens`: `len(text) // 4` (code points, like Python `len`). -/
def estimate_tokens (text : String) : ℕ := text.length / 4

/-- `f"{age:.1f}"` for a nonnegative rational age: one decimal digit,
rounding half up. -/
def fmt1 (a : ℚ) : String :=
  let k : ℤ := Int.ediv (20 * a.num + (a.den : ℤ)) (2 * (a.den : ℤ))
  toString (k.toNat / 10) ++ "." ++ toString (k.toNat % 10)

/-- `"=" * 70`. -/
def eq_border : String := String.mk (List.replicate 70 '=')

/-- `"─" * 70`. -/
def dash_border : String := String.mk (List.replicate 70 '─')

/-- The `while items_per_page > 0` page-sizing loop: `measure n` is the
estimated token count of the first `n` items formatted; exit with the
current size once the guard fails or the measured count fits within
`0.8 * max_tokens`, else retry with `max(1, n // 2)`.  `none` = the given
fuel did not suffice (the source loop never exits in that state). -/
def adaptive_loop (measure : ℕ → ℕ) (max_tokens : ℕ) : ℕ → ℕ → Option ℕ
  | 0, _ => none
  | fuel + 1, n =>
    if n = 0 then some n
    else if 5 * measure n ≤ 4 * max_tokens then some n
    else adaptive_loop measure max_tokens fuel (max 1 (n / 2))

/-- The cache-info block appended near the end of the page: nothing when
no age was supplied, the fresh-data line when the age equals 0, the
one-decimal age line otherwise. -/
def cache_block : Option ℚ → List String
  | none => []
  | some a =>
    if a = 0 then ["💾 CACHE: Fresh data (not cached)"]
    else ["💾 CACHE: Data cached (age: " ++ fmt1 a ++ " seconds)"]

/-- The `if title:` block: a title line plus a second border when the
title is present and truthy (nonempty). -/
def title_block : Option String → List String
  | some t => if t ≠ "" then ["📊 " ++ t, eq_border] else []
  | none => []

/-- The page header, content, and footer lines up to (and including) the
blank line after the second `"─" * 70` rule, in the source's append
order. -/
def page_base (title : Option String) (content pline tline : String) : List String :=
  [eq_border] ++ title_block title
    ++ ["", content, "", dash_border, pline, tline, dash_border] ++ [""]

/-- The `if total_pages > 1:` navigation block, ending with its blank
line; empty for a single-page result. -/
def page_nav (total_pages p end_idx items_per_page total_items : ℕ) : List String :=
  if 1 < total_pages then
    ["🔍 NAVIGATION:"]
    ++ (if p < total_pages then
          ["  • Next page: Use page=" ++ toString (p + 1) ++ " to see items "
            ++ toString (end_idx + 1) ++ "-"
            ++ toString (min (end_idx + items_per_page) total_items)]
        else [])
    ++ (if 1 < p then ["  • Previous page: Use page=" ++ toString (p - 1)] else [])
    ++ ["  • Export all data: Add export_path=\"./data.json\""]
    ++ [""]
  else []

/-- Everything `paginate_by_tokens` does after the sizing loop has settled
on `items_per_page`: clamp the page, slice the data, and build the `lines`
list exactly in the source's append order; returns
`(lines, page, total_pages, items_on_page)`. -/
def build_page (data : List String) (page : ℤ) (max_tokens items_per_page : ℕ)
    (title : Option String) (cache_age : Option ℚ) :
    List String × ℕ × ℕ × ℕ :=
  let total_items := data.length
  let total_pages := (total_items + items_per_page - 1) / items_per_page
  let p : ℕ := (max 1 (min page (total_pages : ℤ))).toNat
  let start_idx := (p - 1) * items_per_page
  let end_idx := min (start_idx + items_per_page) total_items
  let content := String.intercalate "\n" ((data.drop start_idx).take (end_idx - start_idx))
  let pline := "📄 PAGE " ++ toString p ++ " of " ++ toString total_pages
    ++ " | Showing items " ++ toString (start_idx + 1) ++ "-"
    ++ toString end_idx ++ " of " ++ toString total_items ++ " total"
  let tline := "📊 Estimated tokens: " ++ toString (estimate_tokens content)
    ++ " / " ++ toString max_tokens ++ " max"
  (page_base title content pline tline
     ++ (page_nav total_pages p end_idx items_per_page total_items
       ++ (cache_block cache_age ++ [eq_border])),
   p, total_pages, end_idx - start_idx)

/-- Body of `paginate_by_tokens` for a list dataset: `none` when the
dataset is empty (the source short-circuits before building lines) or the
sizing loop does not finish within `fuel`. -/
def paginate_core (data : List String) (page : ℤ) (max_tokens : ℕ)
    (title : Option String) (cache_age : Option ℚ) (fuel : ℕ) :
    Option (List String × ℕ × ℕ × ℕ) :=
  if data.length = 0 then none
  else
    match adaptive_loop
        (fun n => estimate_tokens (String.intercalate "\n" (data.take n)))
        max_tokens fuel data.length with
    | none => none
    | some items_per_page =>
      some (build_page data page max_tokens items_per_page title cache_age)

/-- `paginate_by_tokens` of `src/yfin_mcp/pagination_utils.py` for list
data: the empty dataset short-circuits, otherwise the built lines are
joined with `"\n"`. -/
def paginate_by_tokens (data : List String) (page : ℤ) (max_tokens : ℕ)
    (title : Option String) (cache_age : Option ℚ) (fuel : ℕ) :
    Option PaginationResult :=
  if data.length = 0 then
    some ⟨"No data available", 1, 1, 0, 0⟩
  else
    (paginate_core data page max_tokens title cache_age fuel).map
      (fun r => ⟨String.intercalate "\n" r.1, r.2.1, r.2.2.1, data.length, r.2.2.2⟩)

/-- A single item of 100 characters: its rendering alone measures 25
estimated tokens. -/
def big_item : String := String.mk (List.replicate 100 'x')

/-- Claim C1 (code bug): the adaptive sizing loop does NOT terminate for
every dataset and positive `maxTokens`.  When the first item alone
measures above `0.8 * maxTokens`, the halving step `max(1, 1 // 2) = 1`
leaves `items_per_page` at 1 with the guard `items_per_page > 0` still
true, so the loop runs forever: no fuel bound makes it exit, and
`paginate_by_tokens` on a one-item dataset of 100 characters with
`max_tokens = 10` never produces a result — contradicting the claimed
O(log totalItems) convergence with a guaranteed `itemsPerPage ≥ 1` page. -/
theorem C1_adaptive_loop_nonterminating :
    ∀ fuel : ℕ,
      adaptive_loop
        (fun n => estimate_tokens (String.intercalate "\n" (([big_item] : List String).take n)))
        10 fuel 1 = none
      ∧ paginate_by_tokens [big_item] 1 10 none none fuel = none := by
  have main : ∀ f, adaptive_loop
      (fun n => estimate_tokens (String.intercalate "\n" (([big_item] : List String).take n)))
      10 f 1 = none := by
    intro f
    induction f with
    | zero => rfl
    | succ f ih =>
      show (if (1 : ℕ) = 0 then some 1
        else if 5 * estimate_tokens (String.intercalate "\n"
            (([big_item] : List String).take 1)) ≤ 4 * 10 then some 1
        else adaptive_loop
          (fun n => estimate_tokens (String.intercalate "\n" (([big_item] : List String).take n)))
          10 f (max 1 (1 / 2))) = none
      rw [if_neg (by decide), if_neg (by decide)]
      exact ih
  intro fuel
  refine ⟨main fuel, ?_⟩
  have hcore : paginate_core [big_item] 1 10 none none fuel = none := by
    rcases hl : adaptive_loop
        (fun n => estimate_tokens (String.intercalate "\n" (([big_item] : List String).take n)))
        10 fuel (([big_item] : List String).length) with _ | ipp
    · unfold paginate_core
      rw [if_neg (by decide), hl]
    · exfalso
      rw [show (([big_item] : List String).length) = 1 from rfl, main fuel] at hl
      exact Option.noConfusion hl
  unfold paginate_by_tokens
  rw [if_neg (by decide), hcore]
  rfl

set_option maxRecDepth 100000 in
/-- C2 counterexample: dataset `["a", "a", x100, x100]` (two 1-character
items, two 100-character items), `max_tokens = 20`, page 2.  The sizing
loop measures only the first `items_per_page` items and settles on 2
(since `"a\na"` fits the margin), but page 2 holds the two big items: the
returned page estimates at over twice the budget while showing 2 items,
falsifying `estimate_tokens(text) ≤ maxTokens (up to the 20% margin) ∨
items_on_page = 1`. -/
theorem C2_counterexample :
    ((paginate_by_tokens ["a", "a", big_item, big_item] 2 20 none none 10).map
      (fun r => (decide (estimate_tokens r.formatted_text ≤ 20),
                 decide (estimate_tokens r.formatted_text ≤ 40),
                 r.items_on_page)))
    = some (false, false, 2) := by decide

/-- Claim C2 (amended): the token-budget guarantee of the adaptive
strategy holds for what the loop actually measures — whenever the sizing
loop terminates starting from any `itemsPerPage ≥ 1`, the returned size
`n` satisfies `n ≥ 1` and the formatted prefix of the first `n` items
fits the 20%-margin budget, `5 * measure n ≤ 4 * maxTokens`.  The final
page's full text (envelope included) and pages after the first can
exceed `maxTokens` even with more than one item on the page. -/
theorem C2_amended_budget (measure : ℕ → ℕ) (max_tokens fuel n0 n : ℕ)
    (h0 : 1 ≤ n0)
    (hloop : adaptive_loop measure max_tokens fuel n0 = some n) :
    1 ≤ n ∧ 5 * measure n ≤ 4 * max_tokens := by
  have main : ∀ f m, 1 ≤ m → adaptive_loop measure max_tokens f m = some n →
      1 ≤ n ∧ 5 * measure n ≤ 4 * max_tokens := by
    intro f
    induction f with
    | zero =>
      intro m _ hl
      exact Option.noConfusion hl
    | succ f ih =>
      intro m hm hl
      rw [adaptive_loop, if_neg (by omega : ¬ m = 0)] at hl
      by_cases hc : 5 * measure m ≤ 4 * max_tokens
      · rw [if_pos hc] at hl
        cases Option.some.inj hl
        exact ⟨hm, hc⟩
      · rw [if_neg hc] at hl
        exact ih (max 1 (m / 2)) (le_max_left _ _) hl
  exact main fuel n0 h0 hloop

/-- Concrete instance of the amended C2: a measure that always fits makes
the loop stop at the initial size with the margin check satisfied. -/
theorem C2_amended_budget_witness :
    1 ≤ 3 ∧ 5 * (fun _ : ℕ => 0) 3 ≤ 4 * 10 :=
  C2_amended_budget (fun _ => 0) 10 1 3 3 (by decide) (by rfl)

/-- Splitter on newline characters (executable counterpart of Python
`text.split("\n")`, used to observe individual rendered lines). -/
def split_chars : List Char → List Char → List String
  | [], acc => [String.mk acc.reverse]
  | c :: cs, acc =>
    if c = '\n' then String.mk acc.reverse :: split_chars cs []
    else split_chars cs (c :: acc)

/-- The lines of a rendered text. -/
def split_lines (s : String) : List String := split_chars s.data []

lemma paginate_core_eq (data : List String) (page : ℤ) (max_tokens : ℕ)
    (title : Option String) (cache_age : Option ℚ) (fuel : ℕ) (ipp : ℕ)
    (hd : ¬ data.length = 0)
    (hl : adaptive_loop (fun n => estimate_tokens (String.intercalate "\n" (data.take n)))
        max_tokens fuel data.length = some ipp) :
    paginate_core data page max_tokens title cache_age fuel
      = some (build_page data page max_tokens ipp title cache_age) := by
  unfold paginate_core
  rw [if_neg hd, hl]

lemma last_append3 {α : Type} (x y z : List α) (a : α) :
    (x ++ (y ++ (z ++ [a]))).getLast? = some a := by
  simp

lemma penult_append_single {α : Type} (x y : List α) (c a : α) :
    (x ++ (y ++ ([c] ++ [a]))).dropLast.getLast? = some c := by
  simp

lemma penult_append_none {α : Type} (x y : List α) (b a : α)
    (hx : x.getLast? = some b) (hy : y = [] ∨ y.getLast? = some b) :
    (x ++ (y ++ ([] ++ [a]))).dropLast.getLast? = some b := by
  rcases hy with rfl | hy
  · simp [hx]
  · simp [List.getLast?_append, hy]

lemma page_base_getLast? (title : Option String) (content pline tline : String) :
    (page_base title content pline tline).getLast? = some "" := by
  unfold page_base
  simp [List.getLast?_cons, List.getLast?_append]

lemma page_nav_getLast? (total_pages p end_idx items_per_page total_items : ℕ) :
    page_nav total_pages p end_idx items_per_page total_items = []
    ∨ (page_nav total_pages p end_idx items_per_page total_items).getLast? = some "" := by
  unfold page_nav
  by_cases h : 1 < total_pages
  · right
    simp [h, List.getLast?_cons, List.getLast?_append]
  · left
    simp [h]

/-- Structure of the built lines: the last line is always the closing
border; the next-to-last line is the cache line exactly when an age was
supplied (fresh wording for age 0, the one-decimal age line otherwise),
and the blank line preceding the cache block otherwise. -/
lemma build_page_cache_line (data : List String) (page : ℤ)
    (max_tokens items_per_page : ℕ) (title : Option String) (cache_age : Option ℚ) :
    ((build_page data page max_tokens items_per_page title cache_age).1).getLast?
      = some eq_border
    ∧ (cache_age = none →
        ((build_page data page max_tokens items_per_page title cache_age).1).dropLast.getLast?
          = some "")
    ∧ (cache_age = some 0 →
        ((build_page data page max_tokens items_per_page title cache_age).1).dropLast.getLast?
          = some "💾 CACHE: Fresh data (not cached)")
    ∧ (∀ a, cache_age = some a → a ≠ 0 →
        ((build_page data page max_tokens items_per_page title cache_age).1).dropLast.getLast?
          = some ("💾 CACHE: Data cached (age: " ++ fmt1 a ++ " seconds)")) := by
  refine ⟨?_, ?_, ?_, ?_⟩
  · exact last_append3 _ _ _ _
  · intro ha
    subst ha
    exact penult_append_none _ _ _ _ (page_base_getLast? _ _ _ _)
      (page_nav_getLast? _ _ _ _ _)
  · intro ha
    subst ha
    exact penult_append_single _ _ _ _
  · intro a ha hz
    subst ha
    have hcb : cache_block (some a) =
        ["💾 CACHE: Data cached (age: " ++ fmt1 a ++ " seconds)"] := by
      simp [cache_block, hz]
    dsimp only [build_page]
    rw [hcb]
    exact penult_append_single _ _ _ _

/-- C8 counterexample: paginating `["hello"]` with no cache age yields a
page whose final line is the plain closing border and which contains no
cache line at all — no line starts with the `💾` marker — so the page
neither ends with a cache-freshness line nor reports "fresh" when no age
is supplied. -/
theorem C8_counterexample :
    ((paginate_by_tokens ["hello"] 1 6000 none none 10).map
      (fun r => ((split_lines r.formatted_text).getLast?,
                 (split_lines r.formatted_text).filter
                   (fun l => l.data.take 1 = ['💾']))))
    = some (some eq_border, []) := by decide

/-- Claim C8 (amended): whenever the adaptive pagination of a nonempty
list dataset completes, the page's final line is the closing border, and
the cache-freshness line — when an age is supplied — is the line directly
before it: the fresh-data wording when the supplied age equals 0, the age
rendered with one decimal otherwise.  When no age is supplied, no cache
line is emitted: the line before the closing border is the blank line
that ends the navigation/footer block. -/
theorem C8_amended_cache_line (data : List String) (page : ℤ) (max_tokens : ℕ)
    (title : Option String) (cache_age : Option ℚ) (fuel : ℕ)
    (L : List String) (p tp iop : ℕ)
    (h : paginate_core data page max_tokens title cache_age fuel = some (L, p, tp, iop)) :
    paginate_by_tokens data page max_tokens title cache_age fuel =
      some ⟨String.intercalate "\n" L, p, tp, data.length, iop⟩
    ∧ L.getLast? = some eq_border
    ∧ (cache_age = none → L.dropLast.getLast? = some "")
    ∧ (cache_age = some 0 →
        L.dropLast.getLast? = some "💾 CACHE: Fresh data (not cached)")
    ∧ (∀ a, cache_age = some a → a ≠ 0 →
        L.dropLast.getLast? =
          some ("💾 CACHE: Data cached (age: " ++ fmt1 a ++ " seconds)")) := by
  have hd : ¬ data.length = 0 := by
    intro h0
    unfold paginate_core at h
    rw [if_pos h0] at h
    exact Option.noConfusion h
  rcases hl : adaptive_loop
      (fun n => estimate_tokens (String.intercalate "\n" (data.take n)))
      max_tokens fuel data.length with _ | ipp
  · exfalso
    unfold paginate_core at h
    rw [if_neg hd, hl] at h
    exact Option.noConfusion h
  · have hcore := paginate_core_eq data page max_tokens title cache_age fuel ipp hd hl
    rw [hcore] at h
    have htup := Option.some.inj h
    have hL : (build_page data page max_tokens ipp title cache_age).1 = L :=
      congrArg Prod.fst htup
    have hbp := build_page_cache_line data page max_tokens ipp title cache_age
    rw [hL] at hbp
    refine ⟨?_, hbp.1, hbp.2.1, hbp.2.2.1, hbp.2.2.2⟩
    unfold paginate_by_tokens
    rw [if_neg hd, hcore, htup]
    rfl

/-- Concrete instance of the amended C8: a one-item page with age 5
carries the one-decimal cache line right before the closing border. -/
theorem C8_amended_cache_line_witness :
    paginate_by_tokens ["hello"] 1 6000 none (some 5) 10 =
      some ⟨String.intercalate "\n"
        (build_page ["hello"] 1 6000 1 none (some 5)).1, 1, 1, 1, 1⟩
    ∧ (build_page ["hello"] 1 6000 1 none (some 5)).1.getLast? = some eq_border
    ∧ (build_page ["hello"] 1 6000 1 none (some 5)).1.dropLast.getLast? =
        some ("💾 CACHE: Data cached (age: " ++ fmt1 5 ++ " seconds)") := by
  have h := C8_amended_cache_line ["hello"] 1 6000 none (some 5) 10
    (build_page ["hello"] 1 6000 1 none (some 5)).1 1 1 1 (by rfl)
  exact ⟨h.1, h.2.1, h.2.2.2.2 5 rfl (by decide)⟩
